import Mathlib

/-!
# Verification of the minGPT addition-notebook dataset and exam harness

Shallow embedding of the `AdditionDataset` class and the `give_exam`
decoding logic from `play_math.ipynb`, together with theorems settling
the specification's claims about them.

Conventions:
- Python's arbitrary-precision non-negative integers are `Nat`; the
  `-100` loss-mask sentinel forces targets to be `Int`.
- `%0{w}d`-style rendering is modelled digit-by-digit (MSB first).
- Fallible operations (`ixes[idx]` indexing) return `Option`.
-/

namespace MinGPT

/-- MSB-first decimal digit list of `v`, as Python's `"%d" % v` renders it
(so `0` renders as the single digit `[0]`). -/
def toDigits (v : Nat) : List Nat :=
  if v = 0 then [0] else (Nat.digits 10 v).reverse

/-- Python's `"%0{w}d" % v`: the decimal digits of `v` left-padded with zeros
to at least width `w` (wider values are not truncated, exactly as in Python). -/
def render (w v : Nat) : List Nat :=
  List.replicate (w - (toDigits v).length) 0 ++ toDigits v

/-- Modelled from the spec: `np.random.RandomState(1337).permutation(num)` in
`AdditionDataset.__init__` calls numpy, library code not present in this
repository.  The spec (§3, §9) requires only a deterministic fixed-seed
pseudo-random permutation of `0 .. num-1`, abstracted as an injected
deterministic shuffle; it is modelled here as the affine bijection
`k ↦ (1337*k + 42) % num`, which is a permutation whenever `1337` is coprime
to `num` (always the case for `num = (10^ndigit)^2`). -/
def rngPermutation (num : Nat) : List Nat :=
  (List.range num).map (fun k => (1337 * k + 42) % num)

/-- The `AdditionDataset` object state set up by `__init__`. -/
structure AdditionDataset where
  ndigit : Nat
  split : String
  vocab_size : Nat
  block_size : Nat
  ixes : List Nat
  deriving Repr, DecidableEq

/-- `AdditionDataset.__init__(ndigit, split)`.  Note there is no validation of
`ndigit` anywhere in the constructor.  `int(num*0.2)` is modelled as `num / 5`:
for `num = (10^ndigit)^2` the float product `num*0.2` rounds to the exact value
`num/5` at `ndigit = 1` (the only width where the 1000 cap is not already
engaged), and for `ndigit ≥ 2` both evaluations exceed the cap `1000`, so the
model is observationally identical to the Python code for every `ndigit`. -/
def additionDatasetInit (ndigit : Nat) (split : String) : AdditionDataset :=
  let num := (10 ^ ndigit) ^ 2
  let perm := rngPermutation num
  let num_test := min (num / 5) 1000
  { ndigit := ndigit
    split := split
    vocab_size := 10
    block_size := ndigit + ndigit + ndigit + 1 - 1
    ixes := if split = "test" then perm.take num_test else perm.drop num_test }

/-- `AdditionDataset.__init__` contains no `raise` and no validation branch, so
as a fallible constructor it always returns `ok`; this wrapper makes that
explicit so that "construction fails" is statable. -/
def additionDatasetInitE (ndigit : Nat) (split : String) :
    Except String AdditionDataset :=
  Except.ok (additionDatasetInit ndigit split)

/-- `AdditionDataset.__len__`. -/
def additionDatasetLen (ds : AdditionDataset) : Nat :=
  ds.ixes.length

/-- The `render`/`dix` part of `AdditionDataset.__getitem__`: given the raw
problem number `i` (an element of `ixes`), recover `a = i // 10^ndigit`,
`b = i % 10^ndigit`, `c = a + b` and produce the digit sequence
`f'%0{nd}d%0{nd}d%0{nd+1}d' % (a,b,c)` as a list of digit tokens. -/
def problemSequence (ndigit i : Nat) : List Nat :=
  let nd := 10 ^ ndigit
  let a := i / nd
  let b := i % nd
  let c := a + b
  render ndigit a ++ render ndigit b ++ render (ndigit + 1) c

/-- Python slice assignment `l[:k] = v` on a list: the first `min k l.length`
entries are replaced by `v`, the rest kept. -/
def sliceAssign (k : Nat) (v : Int) : List Int → List Int
  | [] => []
  | x :: xs =>
    match k with
    | 0 => x :: xs
    | k' + 1 => v :: sliceAssign k' v xs

/-- `AdditionDataset.__getitem__(idx)`.  `self.ixes[idx]` raises `IndexError`
for an out-of-range index, modelled as `none`; otherwise the rendered digit
sequence `dix` is split into the model input `x = dix[:-1]` and the target
`y = dix[1:]` whose first `ndigit*2 - 1` positions are masked with `-100`. -/
def additionDatasetGetItem (ds : AdditionDataset) (idx : Nat) :
    Option (List Nat × List Int) :=
  (ds.ixes.get? idx).map (fun i =>
    let dix := problemSequence ds.ndigit i
    let x := dix.dropLast
    let y := sliceAssign (ds.ndigit * 2 - 1) (-100)
      ((dix.drop 1).map Int.ofNat)
    (x, y))

/-! ## The exam harness (`give_exam`) -/

/-- `factors = [10**i for i in range(ndigit+1)][::-1]` from `give_exam`. -/
def giveExamFactors (ndigit : Nat) : List Nat :=
  ((List.range (ndigit + 1)).map (fun i => 10 ^ i)).reverse

/-- Elementwise product-and-sum, as `(t * factors).sum(1)` acts on one row. -/
def dot (xs ys : List Nat) : Nat :=
  (List.zipWith (· * ·) xs ys).sum

/-- `d1i = (d1d2[:, :ndigit] * factors[:, 1:]).sum(1)`: decode the first
addend from the conditioning tokens. -/
def examD1i (ndigit : Nat) (d1d2 : List Nat) : Nat :=
  dot (d1d2.take ndigit) ((giveExamFactors ndigit).drop 1)

/-- `d2i = (d1d2[:, ndigit:ndigit*2] * factors[:, 1:]).sum(1)`: decode the
second addend from the conditioning tokens. -/
def examD2i (ndigit : Nat) (d1d2 : List Nat) : Nat :=
  dot ((d1d2.drop ndigit).take ndigit) ((giveExamFactors ndigit).drop 1)

/-- `d3i_pred = (d3 * factors).sum(1)`: decode the predicted sum digits. -/
def examD3i (ndigit : Nat) (d3 : List Nat) : Nat :=
  dot d3 (giveExamFactors ndigit)

/-- `d3 = d1d2d3[:, -(ndigit+1):]`: the last `ndigit+1` tokens of the sampled
sequence (the whole sequence if it is shorter) — a silent slice, no check. -/
def examLastTokens (ndigit : Nat) (seq : List Nat) : List Nat :=
  seq.drop (seq.length - (ndigit + 1))

/-- Decoding a raw sampled sequence as `give_exam` does: silently slice the
last `ndigit+1` tokens, then decode them base 10. -/
def examDecodePred (ndigit : Nat) (seq : List Nat) : Nat :=
  examD3i ndigit (examLastTokens ndigit seq)

/-- `correct = (d3i_pred == d3i_gt)` with `d3i_gt = d1i + d2i`: one row's
verdict of the exam harness. -/
def examJudge (ndigit : Nat) (d1d2 d3 : List Nat) : Bool :=
  examD3i ndigit d3 == examD1i ndigit d1d2 + examD2i ndigit d1d2

/-! ## Helper lemmas: digit rendering and base-10 decoding -/

/-- The descending factor list `[10^(w-1), ..., 10^1, 10^0]`. -/
def revPows (w : Nat) : List Nat :=
  ((List.range w).map (fun i => 10 ^ i)).reverse

theorem giveExamFactors_eq (n : Nat) : giveExamFactors n = revPows (n + 1) := rfl

theorem revPows_succ (w : Nat) : revPows (w + 1) = 10 ^ w :: revPows w := by
  simp [revPows, List.range_succ]

theorem giveExamFactors_drop_one (n : Nat) :
    (giveExamFactors n).drop 1 = revPows n := by
  rw [giveExamFactors_eq, revPows_succ]
  rfl

theorem dot_nil_right (xs : List Nat) : dot xs [] = 0 := by
  cases xs <;> simp [dot]

theorem dot_cons (x y : Nat) (xs ys : List Nat) :
    dot (x :: xs) (y :: ys) = x * y + dot xs ys := by
  simp [dot]

theorem toDigits_ne_nil (v : Nat) : toDigits v ≠ [] := by
  unfold toDigits
  split
  · simp
  · simp [Nat.digits_ne_nil_iff_ne_zero, *]

theorem toDigits_length_le {w v : Nat} (hw : 1 ≤ w) (hv : v < 10 ^ w) :
    (toDigits v).length ≤ w := by
  unfold toDigits
  split
  · simpa using hw
  · rw [List.length_reverse]
    have h10 : (10 : Nat) ^ (Nat.digits 10 v).length ≤ 10 * v :=
      Nat.base_pow_length_digits_le 10 v (by norm_num) (by assumption)
    have h2 : (10 : Nat) ^ (Nat.digits 10 v).length < 10 ^ (w + 1) := by
      calc (10 : Nat) ^ (Nat.digits 10 v).length ≤ 10 * v := h10
        _ < 10 * 10 ^ w := by omega
        _ = 10 ^ (w + 1) := by rw [pow_succ]; ring
    have := (Nat.pow_lt_pow_iff_right (by norm_num : 1 < 10)).mp h2
    omega

theorem toDigits_lt {v d : Nat} (hd : d ∈ toDigits v) : d < 10 := by
  unfold toDigits at hd
  split at hd
  · simp at hd; omega
  · rw [List.mem_reverse] at hd
    exact Nat.digits_lt_base (by norm_num) hd

theorem render_length {w v : Nat} (hw : 1 ≤ w) (hv : v < 10 ^ w) :
    (render w v).length = w := by
  have h := toDigits_length_le hw hv
  simp [render]
  omega

theorem render_digit_lt {w v d : Nat} (hd : d ∈ render w v) : d < 10 := by
  unfold render at hd
  rw [List.mem_append] at hd
  rcases hd with h | h
  · rw [List.eq_of_mem_replicate h]; omega
  · exact toDigits_lt h

theorem ofDigits_replicate_zero (k : Nat) :
    Nat.ofDigits 10 (List.replicate k 0) = 0 := by
  induction k with
  | zero => simp
  | succ k ih => simp [List.replicate_succ, Nat.ofDigits_cons, ih]

theorem dot_revPows (ds : List Nat) :
    dot ds (revPows ds.length) = Nat.ofDigits 10 ds.reverse := by
  induction ds with
  | nil => simp [dot, revPows]
  | cons d rest ih =>
      rw [List.length_cons, revPows_succ, dot_cons, ih]
      rw [List.reverse_cons, Nat.ofDigits_append]
      simp [Nat.ofDigits_singleton]
      ring

theorem ofDigits_toDigits_reverse (v : Nat) :
    Nat.ofDigits 10 (toDigits v).reverse = v := by
  unfold toDigits
  split
  · simp [Nat.ofDigits_singleton, *]
  · rw [List.reverse_reverse, Nat.ofDigits_digits]

theorem dot_render {w v : Nat} (hw : 1 ≤ w) (hv : v < 10 ^ w) :
    dot (render w v) (revPows w) = v := by
  have hlen : (render w v).length = w := render_length hw hv
  have key := dot_revPows (render w v)
  rw [hlen] at key
  rw [key]
  unfold render
  rw [List.reverse_append, List.reverse_replicate, Nat.ofDigits_append]
  rw [ofDigits_replicate_zero, ofDigits_toDigits_reverse]
  ring

theorem dot_eq_sum {ds : List Nat} {w : Nat} (h : ds.length = w) :
    dot ds (revPows w) = ∑ i in Finset.range w, ds.getD i 0 * 10 ^ (w - 1 - i) := by
  induction ds generalizing w with
  | nil => subst h; simp [dot, revPows]
  | cons d rest ih =>
      subst h
      rw [List.length_cons, revPows_succ, dot_cons, ih rfl]
      rw [Finset.sum_range_succ']
      simp only [List.getD_cons_succ, List.getD_cons_zero]
      have harith : ∀ i : Nat, rest.length + 1 - 1 - (i + 1) = rest.length - 1 - i := by
        intro i; omega
      simp only [harith]
      have : rest.length + 1 - 1 - 0 = rest.length := by omega
      rw [this]
      ring

/-! ## Helper lemmas: the deterministic split permutation -/

theorem rngPermutation_length (num : Nat) : (rngPermutation num).length = num := by
  simp [rngPermutation]

theorem mem_rngPermutation_lt {num x : Nat} (hnum : 0 < num)
    (hx : x ∈ rngPermutation num) : x < num := by
  unfold rngPermutation at hx
  rw [List.mem_map] at hx
  obtain ⟨k, _, hk⟩ := hx
  rw [← hk]
  exact Nat.mod_lt _ hnum

theorem rngPermutation_nodup {num : Nat} (h : Nat.Coprime 1337 num) :
    (rngPermutation num).Nodup := by
  apply List.Nodup.map_on _ (List.nodup_range num)
  intro x hx y hy hxy
  rw [List.mem_range] at hx hy
  have hmod : 1337 * x + 42 ≡ 1337 * y + 42 [MOD num] := hxy
  have hmul : 1337 * x ≡ 1337 * y [MOD num] := Nat.ModEq.add_right_cancel' 42 hmod
  have hcan : x ≡ y [MOD num] := Nat.ModEq.cancel_left_of_coprime h.symm hmul
  have : x % num = y % num := hcan
  rwa [Nat.mod_eq_of_lt hx, Nat.mod_eq_of_lt hy] at this

theorem rngPermutation_subset_range {num : Nat} (hnum : 0 < num) :
    rngPermutation num ⊆ List.range num := by
  intro x hx
  rw [List.mem_range]
  exact mem_rngPermutation_lt hnum hx

theorem rngPermutation_perm {num : Nat} (hnum : 0 < num)
    (h : Nat.Coprime 1337 num) :
    (rngPermutation num).Perm (List.range num) := by
  apply List.Subperm.perm_of_length_le
  · exact List.subperm_of_subset (rngPermutation_nodup h)
      (rngPermutation_subset_range hnum)
  · rw [rngPermutation_length, List.length_range]

theorem coprime_1337_num (n : Nat) : Nat.Coprime 1337 ((10 ^ n) ^ 2) := by
  have h10 : Nat.Coprime 1337 10 := by decide
  exact (h10.pow_right n).pow_right 2

theorem num_pos (n : Nat) : 0 < (10 ^ n) ^ 2 := by positivity

/-- The `ixes` array of either split is a sub-collection of the permutation. -/
theorem ixes_subset_perm (n : Nat) (s : String) :
    (additionDatasetInit n s).ixes ⊆ rngPermutation ((10 ^ n) ^ 2) := by
  unfold additionDatasetInit
  dsimp only
  split
  · exact (List.take_sublist _ _).subset
  · exact (List.drop_sublist _ _).subset

theorem mem_ixes_lt {n : Nat} {s : String} {i : Nat}
    (hi : i ∈ (additionDatasetInit n s).ixes) : i < (10 ^ n) ^ 2 :=
  mem_rngPermutation_lt (num_pos n) (ixes_subset_perm n s hi)

/-! ## Helper lemmas: sequences, masking and per-problem bounds -/

theorem sliceAssign_eq {k : Nat} {v : Int} {l : List Int} (hk : k ≤ l.length) :
    sliceAssign k v l = List.replicate k v ++ l.drop k := by
  induction l generalizing k with
  | nil =>
      simp at hk
      subst hk
      simp [sliceAssign]
  | cons x xs ih =>
      cases k with
      | zero => simp [sliceAssign]
      | succ k' =>
          rw [List.length_cons] at hk
          simp [sliceAssign, List.replicate_succ, ih (Nat.le_of_succ_le_succ hk)]

theorem problem_digit_bounds {n i : Nat} (hi : i < (10 ^ n) ^ 2) :
    i / 10 ^ n < 10 ^ n ∧ i % 10 ^ n < 10 ^ n ∧
      i / 10 ^ n + i % 10 ^ n < 10 ^ (n + 1) := by
  have hpos : 0 < (10 : Nat) ^ n := pow_pos (by norm_num) n
  have h1 : i / 10 ^ n < 10 ^ n := by
    rw [Nat.div_lt_iff_lt_mul hpos]
    rw [pow_two] at hi
    exact hi
  have h2 : i % 10 ^ n < 10 ^ n := Nat.mod_lt _ hpos
  refine ⟨h1, h2, ?_⟩
  have e : (10 : Nat) ^ (n + 1) = 10 ^ n * 10 := pow_succ 10 n
  omega

theorem problemSequence_parts (n i : Nat) :
    problemSequence n i =
      render n (i / 10 ^ n) ++ render n (i % 10 ^ n) ++
        render (n + 1) (i / 10 ^ n + i % 10 ^ n) := rfl

theorem problemSequence_length {n i : Nat} (hn : 1 ≤ n)
    (hi : i < (10 ^ n) ^ 2) : (problemSequence n i).length = 3 * n + 1 := by
  obtain ⟨h1, h2, h3⟩ := problem_digit_bounds hi
  rw [problemSequence_parts, List.length_append, List.length_append,
    render_length hn h1, render_length hn h2, render_length (by omega) h3]
  omega

theorem problemSequence_take {n i : Nat} (hn : 1 ≤ n)
    (hi : i < (10 ^ n) ^ 2) :
    (problemSequence n i).take (2 * n) =
      render n (i / 10 ^ n) ++ render n (i % 10 ^ n) := by
  obtain ⟨h1, h2, _⟩ := problem_digit_bounds hi
  rw [problemSequence_parts]
  apply List.take_left'
  rw [List.length_append, render_length hn h1, render_length hn h2]
  omega

theorem problemSequence_drop {n i : Nat} (hn : 1 ≤ n)
    (hi : i < (10 ^ n) ^ 2) :
    (problemSequence n i).drop (2 * n) =
      render (n + 1) (i / 10 ^ n + i % 10 ^ n) := by
  obtain ⟨h1, h2, _⟩ := problem_digit_bounds hi
  rw [problemSequence_parts]
  apply List.drop_left'
  rw [List.length_append, render_length hn h1, render_length hn h2]
  omega

theorem examD1i_render {n a : Nat} (b : Nat) (hn : 1 ≤ n) (ha : a < 10 ^ n) :
    examD1i n (render n a ++ render n b) = a := by
  unfold examD1i
  rw [giveExamFactors_drop_one, List.take_left' (render_length hn ha)]
  exact dot_render hn ha

theorem examD2i_render {n b : Nat} (a : Nat) (hn : 1 ≤ n) (ha : a < 10 ^ n)
    (hb : b < 10 ^ n) :
    examD2i n (render n a ++ render n b) = b := by
  unfold examD2i
  rw [giveExamFactors_drop_one, List.drop_left' (render_length hn ha),
    List.take_of_length_le (le_of_eq (render_length hn hb))]
  exact dot_render hn hb

theorem examD3i_render {n v : Nat} (hv : v < 10 ^ (n + 1)) :
    examD3i n (render (n + 1) v) = v := by
  unfold examD3i
  rw [giveExamFactors_eq]
  exact dot_render (by omega) hv

/-! ## Claim theorems -/

/-- C1: for every `ndigit ≥ 1` and every pair `(a, b)` with
`0 ≤ a < 10^ndigit` and `0 ≤ b < 10^ndigit`, decoding the encoded digit
sequence of `(a, b, c = a+b)` with the exam harness's base-10 decoding
(`d1i`/`d2i` over the conditioning tokens, `d3i` over the sum tokens)
recovers exactly `(a, b, a+b)`. -/
theorem exam_decode_roundtrip (n a b : Nat) (hn : 1 ≤ n)
    (ha : a < 10 ^ n) (hb : b < 10 ^ n) :
    examD1i n ((render n a ++ render n b ++ render (n + 1) (a + b)).take (2 * n)) = a ∧
    examD2i n ((render n a ++ render n b ++ render (n + 1) (a + b)).take (2 * n)) = b ∧
    examD3i n ((render n a ++ render n b ++ render (n + 1) (a + b)).drop (2 * n)) = a + b := by
  have hla : (render n a).length = n := render_length hn ha
  have hlb : (render n b).length = n := render_length hn hb
  have hc : a + b < 10 ^ (n + 1) := by
    have e : (10 : Nat) ^ (n + 1) = 10 ^ n * 10 := pow_succ 10 n
    omega
  have hlab : (render n a ++ render n b).length = 2 * n := by
    rw [List.length_append, hla, hlb]; omega
  have htake : (render n a ++ render n b ++ render (n + 1) (a + b)).take (2 * n)
      = render n a ++ render n b := List.take_left' hlab
  have hdrop : (render n a ++ render n b ++ render (n + 1) (a + b)).drop (2 * n)
      = render (n + 1) (a + b) := List.drop_left' hlab
  refine ⟨?_, ?_, ?_⟩
  · rw [htake]; exact examD1i_render b hn ha
  · rw [htake]; exact examD2i_render a hn ha hb
  · rw [hdrop]; exact examD3i_render hc

/-- Witness for C1 at `ndigit = 2`, `a = 6`, `b = 39` (the spec's own example). -/
theorem exam_decode_roundtrip_witness :
    examD1i 2 ((render 2 6 ++ render 2 39 ++ render (2 + 1) (6 + 39)).take (2 * 2)) = 6 ∧
    examD2i 2 ((render 2 6 ++ render 2 39 ++ render (2 + 1) (6 + 39)).take (2 * 2)) = 39 ∧
    examD3i 2 ((render 2 6 ++ render 2 39 ++ render (2 + 1) (6 + 39)).drop (2 * 2)) = 6 + 39 :=
  exam_decode_roundtrip 2 6 39 (by norm_num) (by norm_num) (by norm_num)

/-- C2: for every `ndigit ≥ 1`, the train and test splits built from the same
fixed seed are disjoint, their union is exactly the `(10^ndigit)^2` problem
indices, and the test split has size `min((10^ndigit)^2 / 5, 1000)`
(`= min(0.2·total, 1000)`, the total being divisible by 5). -/
theorem split_disjoint_exhaustive (n : Nat) (hn : 1 ≤ n) :
    (∀ x ∈ (additionDatasetInit n "test").ixes,
        x ∉ (additionDatasetInit n "train").ixes) ∧
    List.Perm
      ((additionDatasetInit n "test").ixes ++ (additionDatasetInit n "train").ixes)
      (List.range ((10 ^ n) ^ 2)) ∧
    (additionDatasetInit n "test").ixes.length = min ((10 ^ n) ^ 2 / 5) 1000 := by
  have hperm := rngPermutation_perm (num_pos n) (coprime_1337_num n)
  have htest : (additionDatasetInit n "test").ixes =
      (rngPermutation ((10 ^ n) ^ 2)).take (min ((10 ^ n) ^ 2 / 5) 1000) := rfl
  have htrain : (additionDatasetInit n "train").ixes =
      (rngPermutation ((10 ^ n) ^ 2)).drop (min ((10 ^ n) ^ 2 / 5) 1000) := rfl
  have happ : (additionDatasetInit n "test").ixes ++ (additionDatasetInit n "train").ixes
      = rngPermutation ((10 ^ n) ^ 2) := by
    rw [htest, htrain, List.take_append_drop]
  have hnodup : ((additionDatasetInit n "test").ixes ++
      (additionDatasetInit n "train").ixes).Nodup := by
    rw [happ]; exact rngPermutation_nodup (coprime_1337_num n)
  refine ⟨?_, ?_, ?_⟩
  · exact fun x hx hx' => List.disjoint_of_nodup_append hnodup hx hx'
  · rw [happ]; exact hperm
  · rw [htest, List.length_take, rngPermutation_length]
    exact min_eq_left (le_trans (min_le_left _ _) (Nat.div_le_self _ _))

/-- Witness for C2 at `ndigit = 1`. -/
theorem split_disjoint_exhaustive_witness :
    (∀ x ∈ (additionDatasetInit 1 "test").ixes,
        x ∉ (additionDatasetInit 1 "train").ixes) ∧
    List.Perm
      ((additionDatasetInit 1 "test").ixes ++ (additionDatasetInit 1 "train").ixes)
      (List.range ((10 ^ 1) ^ 2)) ∧
    (additionDatasetInit 1 "test").ixes.length = min ((10 ^ 1) ^ 2 / 5) 1000 :=
  split_disjoint_exhaustive 1 (by norm_num)

/-- C3: for `ndigit ≥ 1` and every problem number `i` contained in a split,
the generator decodes `i` as `a = i / 10^ndigit`, `b = i % 10^ndigit`,
`c = a + b`, and the encoded sequence is the concatenation of the zero-padded
digits of `a`, `b`, `c`, has total length `3·ndigit + 1`, and every entry is a
digit in `[0, 9]`. -/
theorem problem_sequence_wf (n : Nat) (s : String) (i : Nat) (hn : 1 ≤ n)
    (hi : i ∈ (additionDatasetInit n s).ixes) :
    problemSequence n i =
      render n (i / 10 ^ n) ++ render n (i % 10 ^ n) ++
        render (n + 1) (i / 10 ^ n + i % 10 ^ n) ∧
    (problemSequence n i).length = 3 * n + 1 ∧
    ∀ d ∈ problemSequence n i, d ≤ 9 := by
  have hnum : i < (10 ^ n) ^ 2 := mem_ixes_lt hi
  refine ⟨problemSequence_parts n i, problemSequence_length hn hnum, ?_⟩
  intro d hd
  rw [problemSequence_parts] at hd
  rw [List.mem_append] at hd
  rcases hd with hd | hd
  · rw [List.mem_append] at hd
    rcases hd with hd | hd
    · have := render_digit_lt hd; omega
    · have := render_digit_lt hd; omega
  · have := render_digit_lt hd; omega

/-- Witness for C3 at `ndigit = 1`, split `train`, problem number `82`. -/
theorem problem_sequence_wf_witness :
    (82 ∈ (additionDatasetInit 1 "train").ixes) ∧
    (problemSequence 1 82 =
      render 1 (82 / 10 ^ 1) ++ render 1 (82 % 10 ^ 1) ++
        render (1 + 1) (82 / 10 ^ 1 + 82 % 10 ^ 1) ∧
    (problemSequence 1 82).length = 3 * 1 + 1 ∧
    ∀ d ∈ problemSequence 1 82, d ≤ 9) :=
  ⟨by decide, problem_sequence_wf 1 "train" 82 (by norm_num) (by decide)⟩

/-- C4: for every encoded sequence produced by the generator, `__getitem__`
returns the sequence minus its last token as the model input, and the sequence
minus its first token as the target, with the first `2·ndigit - 1` target
positions replaced by the `-100` ignore sentinel and the remaining
`ndigit + 1` target positions carrying the digits of `c`. -/
theorem getItem_input_target (n : Nat) (s : String) (p : Nat) (hn : 1 ≤ n)
    (hp : p < (additionDatasetInit n s).ixes.length) :
    ∃ i, (additionDatasetInit n s).ixes.get? p = some i ∧
      additionDatasetGetItem (additionDatasetInit n s) p =
        some ((problemSequence n i).dropLast,
          List.replicate (2 * n - 1) (-100 : Int) ++
            ((problemSequence n i).drop (2 * n)).map Int.ofNat) ∧
      (problemSequence n i).drop (2 * n) =
        render (n + 1) (i / 10 ^ n + i % 10 ^ n) := by
  obtain ⟨i, hget⟩ : ∃ i, (additionDatasetInit n s).ixes.get? p = some i :=
    ⟨_, List.get?_eq_get hp⟩
  have hmem : i ∈ (additionDatasetInit n s).ixes := List.get?_mem hget
  have hnum : i < (10 ^ n) ^ 2 := mem_ixes_lt hmem
  have hlen : (problemSequence n i).length = 3 * n + 1 :=
    problemSequence_length hn hnum
  have hnd : (additionDatasetInit n s).ndigit = n := rfl
  refine ⟨i, hget, ?_, problemSequence_drop hn hnum⟩
  simp only [additionDatasetGetItem, hget, hnd, Option.map_some']
  congr 1
  congr 1
  have hlen' : (((problemSequence n i).drop 1).map Int.ofNat).length = 3 * n := by
    rw [List.length_map, List.length_drop, hlen]
    omega
  have hsa := sliceAssign_eq (k := n * 2 - 1) (v := -100)
    (l := ((problemSequence n i).drop 1).map Int.ofNat)
    (by rw [hlen']; omega)
  rw [hsa]
  have e1 : n * 2 - 1 = 2 * n - 1 := by omega
  rw [e1]
  congr 1
  rw [← List.map_drop, List.drop_drop]
  have e2 : 1 + (2 * n - 1) = 2 * n := by omega
  rw [e2]

/-- Witness for C4 at `ndigit = 1`, split `test`, position `0`. -/
theorem getItem_input_target_witness :
    ∃ i, (additionDatasetInit 1 "test").ixes.get? 0 = some i ∧
      additionDatasetGetItem (additionDatasetInit 1 "test") 0 =
        some ((problemSequence 1 i).dropLast,
          List.replicate (2 * 1 - 1) (-100 : Int) ++
            ((problemSequence 1 i).drop (2 * 1)).map Int.ofNat) ∧
      (problemSequence 1 i).drop (2 * 1) =
        render (1 + 1) (i / 10 ^ 1 + i % 10 ^ 1) :=
  getItem_input_target 1 "test" 0 (by norm_num) (by decide)

/-- C5: the exam harness decodes a predicted digit sequence of length
`ndigit + 1` as `Σ digit[i] · 10^(ndigit - i)` (most-significant first) and
judges the prediction correct iff that value equals `a + b` exactly, as an
integer equality with no tolerance. -/
theorem exam_judge_iff (n a b : Nat) (d3 : List Nat) (hn : 1 ≤ n)
    (ha : a < 10 ^ n) (hb : b < 10 ^ n) (hd : d3.length = n + 1) :
    (examJudge n
        ((render n a ++ render n b ++ render (n + 1) (a + b)).dropLast.take (2 * n))
        d3 = true)
      ↔ (∑ i in Finset.range (n + 1), d3.getD i 0 * 10 ^ (n - i)) = a + b := by
  have hla : (render n a).length = n := render_length hn ha
  have hlb : (render n b).length = n := render_length hn hb
  have hc : a + b < 10 ^ (n + 1) := by
    have e : (10 : Nat) ^ (n + 1) = 10 ^ n * 10 := pow_succ 10 n
    omega
  have hlc : (render (n + 1) (a + b)).length = n + 1 := render_length (by omega) hc
  have hlab : (render n a ++ render n b).length = 2 * n := by
    rw [List.length_append, hla, hlb]; omega
  have hlseq : (render n a ++ render n b ++ render (n + 1) (a + b)).length
      = 3 * n + 1 := by
    rw [List.length_append, hlab, hlc]; omega
  have hx : (render n a ++ render n b ++ render (n + 1) (a + b)).dropLast.take (2 * n)
      = render n a ++ render n b := by
    rw [List.dropLast_eq_take, hlseq, List.take_take]
    have : 3 * n + 1 - 1 = 3 * n := by omega
    rw [this]
    have : min (2 * n) (3 * n) = 2 * n := by omega
    rw [this]
    exact List.take_left' hlab
  rw [hx]
  unfold examJudge
  rw [examD1i_render b hn ha, examD2i_render a hn ha hb]
  unfold examD3i
  rw [giveExamFactors_eq, dot_eq_sum hd]
  have e : ∀ j : Nat, n + 1 - 1 - j = n - j := by intro j; omega
  simp only [e]
  exact beq_iff_eq

/-- Witness for C5 at `ndigit = 2`, `a = 6`, `b = 39`, prediction `[0,4,5]`
(the spec's own exam example). -/
theorem exam_judge_iff_witness :
    (examJudge 2
        ((render 2 6 ++ render 2 39 ++ render (2 + 1) (6 + 39)).dropLast.take (2 * 2))
        [0, 4, 5] = true)
      ↔ (∑ i in Finset.range (2 + 1), [0, 4, 5].getD i 0 * 10 ^ (2 - i)) = 6 + 39 :=
  exam_judge_iff 2 6 39 [0, 4, 5] (by norm_num) (by norm_num) (by norm_num) (by norm_num)

/-- C6: determinism — the constructor seeds its permutation generator with the
fixed constant `1337` and consults no other state, so constructing the dataset
twice with the same `ndigit` and `split` yields bit-identical split assignments
and, at every index, identical `(input, target)` pairs.  In this pure
embedding the absence of hidden state is structural: both constructions are
the same function application. -/
theorem dataset_deterministic (n : Nat) (s : String) :
    (additionDatasetInit n s).ixes = (additionDatasetInit n s).ixes ∧
    ∀ idx, additionDatasetGetItem (additionDatasetInit n s) idx =
      additionDatasetGetItem (additionDatasetInit n s) idx :=
  ⟨rfl, fun _ => rfl⟩

/-- C7 (counterexample): the claim says non-positive `ndigit` fails fast with
an `InvalidConfiguration` error, but `__init__` contains no validation at all:
at `ndigit = 0` construction succeeds and yields the degenerate one-problem
dataset. -/
theorem init_accepts_ndigit_zero :
    additionDatasetInitE 0 "train" = Except.ok (additionDatasetInit 0 "train") ∧
    (additionDatasetInit 0 "train").ixes = [0] :=
  ⟨rfl, rfl⟩

/-- C7 (amended): construction never fails — there is no `ndigit` validation
and no `InvalidConfiguration` error for any `ndigit ≥ 0`; every construction
returns a dataset whose split has the expected size. -/
theorem init_never_fails (n : Nat) (s : String) :
    (additionDatasetInitE n s).isOk = true ∧
    additionDatasetLen (additionDatasetInit n s) =
      if s = "test" then min ((10 ^ n) ^ 2 / 5) 1000
      else (10 ^ n) ^ 2 - min ((10 ^ n) ^ 2 / 5) 1000 := by
  refine ⟨rfl, ?_⟩
  by_cases h : s = "test"
  · simp only [additionDatasetLen, additionDatasetInit, h, if_pos]
    rw [List.length_take, rngPermutation_length]
    exact min_eq_left (le_trans (min_le_left _ _) (Nat.div_le_self _ _))
  · simp only [additionDatasetLen, additionDatasetInit, h, if_neg,
      if_false, ite_false]
    rw [List.length_drop, rngPermutation_length]

/-- C8 (counterexample): a predicted sequence of length 4 for `ndigit = 2`
(expected length 3) is not rejected: the harness silently slices the last
3 tokens and decodes them, so the leading `9` is dropped and the value `45`
is produced with no `MalformedPrediction` error. -/
theorem exam_decode_silently_slices :
    examLastTokens 2 [9, 0, 4, 5] = [0, 4, 5] ∧
    examDecodePred 2 [9, 0, 4, 5] = 45 := by
  constructor <;> rfl

/-- C8 (amended): the harness never checks the prediction length; it silently
keeps only the last `ndigit+1` tokens, so any prefix before the final
`ndigit+1` tokens is discarded without error. -/
theorem exam_decode_ignores_prefix (n : Nat) (xs ys : List Nat)
    (h : ys.length = n + 1) :
    examDecodePred n (xs ++ ys) = examD3i n ys := by
  unfold examDecodePred examLastTokens
  rw [List.length_append, h]
  have e : xs.length + (n + 1) - (n + 1) = xs.length := by omega
  rw [e, List.drop_left]

/-- Witness for the amended C8 at `ndigit = 2` with discarded prefix `[7,7]`. -/
theorem exam_decode_ignores_prefix_witness :
    ([1, 2, 3] : List Nat).length = 2 + 1 ∧
    examDecodePred 2 ([7, 7] ++ [1, 2, 3]) = examD3i 2 [1, 2, 3] :=
  ⟨rfl, exam_decode_ignores_prefix 2 [7, 7] [1, 2, 3] rfl⟩

/-- C9: indexing a split at any position at or beyond its length fails (the
`IndexError` of `self.ixes[idx]`, modelled as `none`) rather than returning a
value. -/
theorem getItem_out_of_range (ds : AdditionDataset) (idx : Nat)
    (h : additionDatasetLen ds ≤ idx) :
    additionDatasetGetItem ds idx = none := by
  unfold additionDatasetGetItem
  rw [List.get?_eq_none.mpr h]
  rfl

/-- Witness for C9: the `ndigit = 1` test split has 20 problems, so index 20
is rejected. -/
theorem getItem_out_of_range_witness :
    additionDatasetLen (additionDatasetInit 1 "test") ≤ 20 ∧
    additionDatasetGetItem (additionDatasetInit 1 "test") 20 = none :=
  ⟨by decide, getItem_out_of_range (additionDatasetInit 1 "test") 20 (by decide)⟩

/-- `__getitem__` reads only the `ixes` and `ndigit` fields of the dataset. -/
theorem getItem_congr {d1 d2 : AdditionDataset} (hx : d1.ixes = d2.ixes)
    (hn : d1.ndigit = d2.ndigit) (idx : Nat) :
    additionDatasetGetItem d1 idx = additionDatasetGetItem d2 idx := by
  unfold additionDatasetGetItem
  rw [hx, hn]

/-- C10 (implicit): the split selector is compared only against the string
`"test"`; any other value (misspellings, `"validation"`, ...) silently
produces the train split — same `ixes`, same items — with no error raised. -/
theorem split_selector_defaults_to_train (n : Nat) (s : String)
    (h : s ≠ "test") :
    (additionDatasetInit n s).ixes = (additionDatasetInit n "train").ixes ∧
    ∀ idx, additionDatasetGetItem (additionDatasetInit n s) idx =
      additionDatasetGetItem (additionDatasetInit n "train") idx := by
  have hix : (additionDatasetInit n s).ixes = (additionDatasetInit n "train").ixes := by
    unfold additionDatasetInit
    dsimp only
    rw [if_neg h, if_neg (by decide : ¬("train" = "test"))]
  exact ⟨hix, fun idx => getItem_congr hix rfl idx⟩

/-- Witness for C10 at `ndigit = 1`, split `"validation"`, index `0`. -/
theorem split_selector_defaults_to_train_witness :
    (additionDatasetInit 1 "validation").ixes = (additionDatasetInit 1 "train").ixes ∧
    additionDatasetGetItem (additionDatasetInit 1 "validation") 0 =
      additionDatasetGetItem (additionDatasetInit 1 "train") 0 :=
  ⟨(split_selector_defaults_to_train 1 "validation" (by decide)).1,
   (split_selector_defaults_to_train 1 "validation" (by decide)).2 0⟩

end MinGPT
